import Mathlib

/-!
# go-bootstrap: a verification development of `main.go`

A shallow embedding of the project generator's `main` function:
root selection (lines 25-39), path derivation (lines 41-48), the placeholder
map (lines 74-83) and the pipeline of external commands (lines 88-152).

Go strings are modelled as lists of characters. The only bytes the program
inspects are the ASCII bytes `/`, `:`, `.` and the letters of `git` and
`bitbucket`; in UTF-8 no such byte occurs inside the encoding of another
character, so splitting and trimming the character sequence agrees with
splitting and trimming the byte sequence.
-/

set_option autoImplicit false

namespace GoBootstrap

/-- A Go string. -/
abbrev GoString := List Char

/-! ## The Go standard library functions `main` calls -/

namespace strings

/-- `strings.Trim(s, cutset)`: `s` without the leading and trailing characters
that occur in `cutset`. -/
def Trim (s cutset : GoString) : GoString :=
  (s.dropWhile (fun c => decide (c ∈ cutset))).rdropWhile (fun c => decide (c ∈ cutset))

/-- `strings.Split(s, sep)` for a separator `sep` of one byte: the substrings
between the occurrences of `sep`; one more substring than there are
separators, so never an empty slice (`Split("", sep)` is `[""]`). -/
def Split : GoString → Char → List GoString
  | [], _ => [[]]
  | c :: cs, sep =>
    if c = sep then [] :: Split cs sep
    else
      match Split cs sep with
      | [] => [[c]]
      | h :: t => (c :: h) :: t

/-- `strings.HasPrefix(s, pre)`. -/
def HasPrefix (s pre : GoString) : Bool :=
  pre.isPrefixOf s

/-- `strings.Join(elems, sep)`. -/
def Join (elems : List GoString) (sep : GoString) : GoString :=
  sep.intercalate elems

end strings

namespace filepath

/-- The backtracking loop of `Clean` for a `..` element, on the reversed
buffer: `revOut` is the buffer below the write index `w` (so `w` is its
length) and `last` the byte at index `w`.
`for out.w > dotdot && !os.IsPathSeparator(out.index(out.w)) { out.w-- }` -/
def backtrackLoop (dotdot : Nat) : List Char → Char → List Char
  | [], _ => []
  | c :: cs, last =>
    if (c :: cs).length > dotdot ∧ last ≠ '/' then backtrackLoop dotdot cs c
    else c :: cs

/-- The `can backtrack` case of `Clean`: `out.w--` followed by the loop that
removes the last element written. -/
def backtrack (out : List Char) (dotdot : Nat) : List Char :=
  match out.reverse with
  | [] => []
  | c :: cs => (backtrackLoop dotdot cs c).reverse

/-- The main loop `for r < n { switch ... }` of `filepath.Clean` (Unix).
`rest` is `path[r:]`, `out` the buffer written so far (`out.w` is its
length), `dotdot` the index where `..` must stop. Every iteration consumes
at least one byte of `rest`, so a fuel of `len(path)` is never exhausted
(`cleanLoop_fuel`, `cleanLoop_fuel_add`). -/
def cleanLoop (rooted : Bool) : Nat → List Char → List Char → Nat → List Char
  | 0, _, out, _ => out
  | _ + 1, [], out, _ => out
  | fuel + 1, c :: tl, out, dotdot =>
    if c = '/' then
      -- empty path element
      cleanLoop rooted fuel tl out dotdot
    else if c = '.' ∧ (tl = [] ∨ tl.head? = some '/') then
      -- . element
      cleanLoop rooted fuel tl out dotdot
    else if c = '.' ∧ tl.head? = some '.' ∧ (tl.tail = [] ∨ tl.tail.head? = some '/') then
      -- .. element: remove to last separator
      if out.length > dotdot then
        cleanLoop rooted fuel tl.tail (backtrack out dotdot) dotdot
      else if rooted = false then
        let out1 := if out.length > 0 then out ++ ['/'] else out
        let out2 := out1 ++ ['.', '.']
        cleanLoop rooted fuel tl.tail out2 out2.length
      else
        cleanLoop rooted fuel tl.tail out dotdot
    else
      -- real path element: add slash if needed, copy element
      let out1 :=
        if (rooted = true ∧ out.length ≠ 1) ∨ (rooted = false ∧ out.length ≠ 0) then out ++ ['/']
        else out
      cleanLoop rooted fuel ((c :: tl).dropWhile (fun x => decide (x ≠ '/')))
        (out1 ++ (c :: tl).takeWhile (fun x => decide (x ≠ '/'))) dotdot

/-- `filepath.Clean(path)` on Unix: the shortest path name equivalent to
`path` by purely lexical processing. -/
def Clean (path : GoString) : GoString :=
  if path = [] then ['.']
  else
    let rooted : Bool := decide (path.head? = some '/')
    let out :=
      if rooted then cleanLoop rooted path.length path.tail ['/'] 1
      else cleanLoop rooted path.length path [] 0
    -- Turn empty string into "."
    if out.length = 0 then ['.'] else out

/-- `filepath.Join(elem...)` on Unix: the elements from the first non-empty
one on, joined by `/` and cleaned; empty when every element is empty. -/
def Join : List GoString → GoString
  | [] => []
  | e :: es => if e ≠ [] then Clean (strings.Join (e :: es) ['/']) else Join es

end filepath

/-! ## Faults -/

/-- The ways a run of `main` ends early. -/
inductive Fault
  /-- `log.Fatal`: the message is logged and the process exits with status 1. -/
  | logFatal
  /-- `helpers.ExitOnError` with a non-nil error. -/
  | exitOnError
  /-- A run-time panic, index out of range: the process exits with status 2. -/
  | indexOutOfRange
  /-- A run-time panic, nil pointer dereference. -/
  | nilDereference
  deriving DecidableEq, Repr

/-- Slice indexing `a[i]` with Go's bounds check: a panic unless
`0 <= i < len(a)`. -/
def index {α : Type} (a : List α) (i : Int) : Except Fault α :=
  if i < 0 then .error .indexOutOfRange
  else
    match a[i.toNat]? with
    | some x => .ok x
    | none => .error .indexOutOfRange

/-! ## Root selection, `main` lines 25-39 -/

/-- Lines 26-39 of `main`: the candidate roots are the colon-separated
entries of `$GOPATH`; the first one is chosen unless `-gopath` is non-empty
and equal to an entry. -/
def resolveRoot (gopathEnv gopathInput : GoString) : Except Fault GoString := do
  -- There can be more than one path, separated by colon.
  let gopaths := strings.Split gopathEnv ':'
  -- By default, we choose the first GOPATH.
  let gopath ← index gopaths 0
  -- But if user specified one, we choose that one.
  if gopathInput ≠ [] then
    match gopaths.find? (fun gp => decide (gp = gopathInput)) with
    | some gp => pure gp
    | none => pure gopath
  else
    pure gopath

/-! ## Path derivation, `main` lines 41-48 -/

/-- The values lines 41-48 of `main` compute. -/
structure PathInfo where
  trimmedPath : GoString
  fullpath : GoString
  repoName : GoString
  repoUser : GoString
  projectName : GoString
  dbName : GoString
  testDbName : GoString
  deriving DecidableEq, Repr

/-- Lines 41-48 of `main`. -/
def derivePaths (gopath dirInput : GoString) : Except Fault PathInfo := do
  let trimmedPath := strings.Trim dirInput ['/']
  let fullpath := filepath.Join [gopath, "src".toList, trimmedPath]
  let dirChunks := strings.Split trimmedPath '/'
  let repoName ← index dirChunks ((dirChunks.length : Int) - 3)
  let repoUser ← index dirChunks ((dirChunks.length : Int) - 2)
  let projectName ← index dirChunks ((dirChunks.length : Int) - 1)
  let dbName := projectName
  let testDbName := projectName ++ "-test".toList
  pure
    { trimmedPath := trimmedPath, fullpath := fullpath, repoName := repoName,
      repoUser := repoUser, projectName := projectName, dbName := dbName,
      testDbName := testDbName }

/-! ## The placeholder map, `main` lines 74-83 -/

/-- A Go `map[string]string`: an association list whose keys are distinct. -/
abbrev GoMap := List (GoString × GoString)

/-- The assignment `m[k] = v`: the entry of `k` is overwritten when there is
one and added otherwise. -/
def GoMap.set (m : GoMap) (k v : GoString) : GoMap :=
  if m.any (fun e => decide (e.1 = k)) then
    m.map (fun e => if e.1 = k then (k, v) else e)
  else m ++ [(k, v)]

/-- The lookup `m[k]`, `none` for a key that is not in the map. -/
def GoMap.get? (m : GoMap) (k : GoString) : Option GoString :=
  (m.find? (fun e => decide (e.1 = k))).map Prod.snd

/-- The functions of the `helpers` package that build replacement values.
The package is not part of the sources, so they are parameters of the model:
`RandString(n)` (the string drawn in this run), `DefaultPGDSN(dbName)` and
`BashEscape(s)`. -/
structure Helpers where
  RandString : Nat → GoString
  DefaultPGDSN : GoString → GoString
  BashEscape : GoString → GoString

/-- Lines 74-83 of `main`. `currentUser` is the result of `user.Current()`,
whose error `main` drops: `none` is the nil pointer a failed lookup returns,
and `currentUser.Username` on it is a run-time panic. -/
def buildReplacers (h : Helpers) (currentUser : Option GoString) (p : PathInfo) :
    Except Fault GoMap := do
  let replacers : GoMap := []
  let replacers := replacers.set "$GO_BOOTSTRAP_REPO_NAME".toList p.repoName
  let replacers := replacers.set "$GO_BOOTSTRAP_REPO_USER".toList p.repoUser
  let replacers := replacers.set "$GO_BOOTSTRAP_PROJECT_NAME".toList p.projectName
  let replacers := replacers.set "$GO_BOOTSTRAP_COOKIE_SECRET".toList (h.RandString 16)
  let username ←
    match currentUser with
    | some u => pure u
    | none => Except.error Fault.nilDereference
  let replacers := replacers.set "$GO_BOOTSTRAP_CURRENT_USER".toList username
  let replacers := replacers.set "$GO_BOOTSTRAP_PG_DSN".toList (h.DefaultPGDSN p.dbName)
  let replacers :=
    replacers.set "$GO_BOOTSTRAP_ESCAPED_PG_DSN".toList (h.BashEscape (h.DefaultPGDSN p.dbName))
  let replacers := replacers.set "$GO_BOOTSTRAP_PG_TEST_DSN".toList (h.DefaultPGDSN p.testDbName)
  let replacers :=
    replacers.set "$GO_BOOTSTRAP_ESCAPED_PG_TEST_DSN".toList
      (h.BashEscape (h.DefaultPGDSN p.testDbName))
  pure replacers

/-! ## External effects and runs -/

/-- An `exec.Cmd`: the program, its arguments, and the working directory
`Dir`. An empty `Dir` (the zero value) runs the command in the calling
process's current directory. -/
structure Cmd where
  Name : GoString
  Args : List GoString
  Dir : GoString
  deriving DecidableEq, Repr

/-- `exec.Command(name, arg...)`: `Dir` is left unset. -/
def exec.Command (name : GoString) (arg : List GoString) : Cmd :=
  { Name := name, Args := arg, Dir := [] }

/-- The calls `main` makes that act on the world outside the process. -/
inductive Effect
  | mkdirAll (path : GoString)
  | getwd
  | chdir (dir : GoString)
  | combinedOutput (cmd : Cmd)
  | searchReplace (root : GoString) (replacers : GoMap)
  deriving DecidableEq, Repr

/-- A run: the effects performed, in order, and how the run ended, with a
value or with a fault. -/
structure Run (α : Type) where
  trace : List Effect
  result : Except Fault α

namespace Run

/-- A run that performs nothing and returns `a`. -/
def ret {α : Type} (a : α) : Run α :=
  { trace := [], result := .ok a }

/-- Sequencing: the second run happens only when the first ended with a value. -/
def andThen {α β : Type} (m : Run α) (f : α → Run β) : Run β :=
  match m.result with
  | .error e => { trace := m.trace, result := .error e }
  | .ok a => { trace := m.trace ++ (f a).trace, result := (f a).result }

instance : Monad Run where
  pure := ret
  bind := andThen

/-- A computation without effects, as a run. -/
def lift {α : Type} (x : Except Fault α) : Run α :=
  { trace := [], result := x }

/-- The run ended early: the process exits with a non-zero status. -/
def exitsNonZero {α : Type} (r : Run α) : Prop :=
  ∃ f, r.result = .error f

end Run

/-- Performing one effect; the value is `err != nil`. `succeeds` gives the
outcome of every effect. -/
def perform (succeeds : Effect → Bool) (e : Effect) : Run Bool :=
  { trace := [e], result := .ok (!succeeds e) }

/-- `cmd.CombinedOutput()`: runs the command; the value is `err != nil`. -/
def CombinedOutput (succeeds : Effect → Bool) (cmd : Cmd) : Run Bool :=
  perform succeeds (.combinedOutput cmd)

/-- `log.Fatal(...)`. -/
def logFatal : Run Unit :=
  { trace := [], result := .error .logFatal }

/-- Modelled from the spec: `helpers.ExitOnError(err, msg)`, of the `helpers`
package that is not part of the sources. For a Fatal step, "a non-zero/error
outcome aborts the entire run immediately; ... the process terminates with a
non-zero status. No later step runs"; with a nil error nothing happens. -/
def ExitOnError (err : Bool) : Run Unit :=
  if err then { trace := [], result := .error .exitOnError } else pure ()

/-! ## The pipeline, `main` lines 88-152 -/

/-- Line 106 of `main`: `repoIsGit := strings.HasPrefix(repoName, "git")`. -/
def repoIsGit (repoName : GoString) : Bool :=
  strings.HasPrefix repoName "git".toList

/-- Line 107 of `main`: `repoIsHg := strings.HasPrefix(repoName, "bitbucket")`. -/
def repoIsHg (repoName : GoString) : Bool :=
  strings.HasPrefix repoName "bitbucket".toList

/-- Lines 88-152 of `main`. -/
def pipeline (succeeds : Effect → Bool) (fullpath repoName : GoString) : Run Unit := do
  -- 4. go get github.com/mattes/migrate.
  let err ← CombinedOutput succeeds
    (exec.Command "go".toList ["get".toList, "github.com/mattes/migrate".toList])
  ExitOnError err
  -- 5. Bootstrap databases.
  let cmd := exec.Command "bash".toList ["scripts/db-bootstrap".toList]
  let cmd := { cmd with Dir := fullpath }
  let _ ← CombinedOutput succeeds cmd
  -- 6. Get all application dependencies for the first time.
  let cmd := exec.Command "go".toList ["get".toList, "./...".toList]
  let cmd := { cmd with Dir := fullpath }
  let err ← CombinedOutput succeeds cmd
  ExitOnError err
  let repoIsGit := repoIsGit repoName
  let repoIsHg := repoIsHg repoName
  -- Generate Godeps directory.
  -- Works only on git repo or bitbucket repo.
  if repoIsGit || repoIsHg then
    let err ← CombinedOutput succeeds
      (exec.Command "go".toList ["get".toList, "github.com/tools/godep".toList])
    ExitOnError err
    if repoIsGit then
      let cmd := exec.Command "git".toList ["init".toList]
      let cmd := { cmd with Dir := fullpath }
      let err ← CombinedOutput succeeds cmd
      ExitOnError err
    if repoIsHg then
      let cmd := exec.Command "hg".toList ["init".toList]
      let cmd := { cmd with Dir := fullpath }
      let _ ← CombinedOutput succeeds cmd
    -- godep save ./...
    let cmd := exec.Command "godep".toList ["save".toList, "./...".toList]
    let cmd := { cmd with Dir := fullpath }
    let err ← CombinedOutput succeeds cmd
    ExitOnError err
    -- Run tests on newly generated app.
    let cmd := exec.Command "godep".toList ["go".toList, "test".toList, "./...".toList]
    let cmd := { cmd with Dir := fullpath }
    let _ ← CombinedOutput succeeds cmd
  else
    -- Run tests on newly generated app.
    let cmd := exec.Command "go".toList ["test".toList, "./...".toList]
    let cmd := { cmd with Dir := fullpath }
    let _ ← CombinedOutput succeeds cmd

/-! ## `main` -/

/-- What a run of `main` reads from the world outside the process. -/
structure World where
  /-- `os.ExpandEnv`. -/
  ExpandEnv : GoString → GoString
  /-- `user.Current()`, `none` when the lookup fails. -/
  currentUser : Option GoString
  /-- The directory `os.Getwd()` returns. -/
  cwd : GoString
  helpers : Helpers
  /-- The outcome of every effect. -/
  succeeds : Effect → Bool

/-- The function `main`, given the values of the flags `-dir` and `-gopath`. -/
def main (w : World) (dirInput gopathInput : GoString) : Run Unit := do
  if dirInput = [] then
    logFatal
  let gopath ← Run.lift (resolveRoot (w.ExpandEnv "$GOPATH".toList) gopathInput)
  let p ← Run.lift (derivePaths gopath dirInput)
  let currentUser := w.currentUser
  -- 1. Create target directory
  let err ← perform w.succeeds (.mkdirAll p.fullpath)
  ExitOnError err
  -- 2. Copy everything under blank directory to target directory.
  let blankDir := w.ExpandEnv (filepath.Join [gopath, "src".toList, "github.com".toList,
    "go-bootstrap".toList, "go-bootstrap".toList, "blank".toList])
  let err ← perform w.succeeds .getwd
  let currDir := w.cwd
  ExitOnError err
  let err ← perform w.succeeds (.chdir blankDir)
  ExitOnError err
  let err ← CombinedOutput w.succeeds
    (exec.Command "cp".toList ["-rf".toList, ".".toList, p.fullpath])
  ExitOnError err
  let err ← perform w.succeeds (.chdir currDir)
  ExitOnError err
  -- 3. Interpolate placeholder variables on the new project.
  let replacers ← Run.lift (buildReplacers w.helpers currentUser p)
  let err ← perform w.succeeds (.searchReplace p.fullpath replacers)
  ExitOnError err
  pipeline w.succeeds p.fullpath p.repoName

/-- The commands a run executed, in order. -/
def commandsRun {α : Type} (r : Run α) : List Cmd :=
  r.trace.filterMap fun e =>
    match e with
    | .combinedOutput c => some c
    | _ => none

/-- A world in which `$GOPATH` is not set (it expands to the empty string and
a string without a variable expands to itself), every effect succeeds and
the helpers return their argument; it instantiates statements about `main`. -/
def unsetGopathWorld : World :=
  { ExpandEnv := fun s => if s = "$GOPATH".toList then [] else s,
    currentUser := some "alice".toList,
    cwd := "/home/alice".toList,
    helpers := { RandString := fun n => List.replicate n 'x', DefaultPGDSN := fun s => s,
                 BashEscape := fun s => s },
    succeeds := fun _ => true }

/-! ## The pipeline as the specification describes it -/

/-- The spec's `RepoVariant`. -/
inductive RepoVariant
  | Git
  | Mercurial
  | None
  deriving DecidableEq, Repr

/-- The spec's prefix classifier: a name starting with `git` is Git, one
starting with `bitbucket` is Mercurial, anything else is None. -/
def classifyRepo (repoName : GoString) : RepoVariant :=
  if "git".toList <+: repoName then .Git
  else if "bitbucket".toList <+: repoName then .Mercurial
  else .None

/-- The spec's failure policy of a step. -/
inductive OnFailure
  | Fatal
  | Tolerated
  deriving DecidableEq, Repr

/-- The spec's `PipelineStep`: a command and its failure policy. -/
structure PipelineStep where
  command : Cmd
  onFailure : OnFailure
  deriving DecidableEq, Repr

/-- `go get github.com/mattes/migrate`, run without a working directory. -/
def getMigrateTool : Cmd :=
  { Name := "go".toList, Args := ["get".toList, "github.com/mattes/migrate".toList], Dir := [] }

/-- `go get github.com/tools/godep`, run without a working directory. -/
def installGodep : Cmd :=
  { Name := "go".toList, Args := ["get".toList, "github.com/tools/godep".toList], Dir := [] }

/-- `bash scripts/db-bootstrap` in `dir`. -/
def dbBootstrapScript (dir : GoString) : Cmd :=
  { Name := "bash".toList, Args := ["scripts/db-bootstrap".toList], Dir := dir }

/-- `go get ./...` in `dir`. -/
def goGetAll (dir : GoString) : Cmd :=
  { Name := "go".toList, Args := ["get".toList, "./...".toList], Dir := dir }

/-- `git init` in `dir`. -/
def gitInit (dir : GoString) : Cmd :=
  { Name := "git".toList, Args := ["init".toList], Dir := dir }

/-- `hg init` in `dir`. -/
def hgInit (dir : GoString) : Cmd :=
  { Name := "hg".toList, Args := ["init".toList], Dir := dir }

/-- `godep save ./...` in `dir`. -/
def godepSave (dir : GoString) : Cmd :=
  { Name := "godep".toList, Args := ["save".toList, "./...".toList], Dir := dir }

/-- `godep go test ./...` in `dir`. -/
def godepGoTest (dir : GoString) : Cmd :=
  { Name := "godep".toList, Args := ["go".toList, "test".toList, "./...".toList], Dir := dir }

/-- `go test ./...` in `dir`. -/
def goTest (dir : GoString) : Cmd :=
  { Name := "go".toList, Args := ["test".toList, "./...".toList], Dir := dir }

/-- The fixed ordered step sequence of each variant, as the spec lists it. -/
def stepSequence (fullpath : GoString) : RepoVariant → List PipelineStep
  | .Git =>
    [ ⟨getMigrateTool, .Fatal⟩, ⟨dbBootstrapScript fullpath, .Tolerated⟩,
      ⟨goGetAll fullpath, .Fatal⟩, ⟨installGodep, .Fatal⟩, ⟨gitInit fullpath, .Fatal⟩,
      ⟨godepSave fullpath, .Fatal⟩, ⟨godepGoTest fullpath, .Tolerated⟩ ]
  | .Mercurial =>
    [ ⟨getMigrateTool, .Fatal⟩, ⟨dbBootstrapScript fullpath, .Tolerated⟩,
      ⟨goGetAll fullpath, .Fatal⟩, ⟨installGodep, .Fatal⟩, ⟨hgInit fullpath, .Tolerated⟩,
      ⟨godepSave fullpath, .Fatal⟩, ⟨godepGoTest fullpath, .Tolerated⟩ ]
  | .None =>
    [ ⟨getMigrateTool, .Fatal⟩, ⟨dbBootstrapScript fullpath, .Tolerated⟩,
      ⟨goGetAll fullpath, .Fatal⟩, ⟨goTest fullpath, .Tolerated⟩ ]

/-- A step fails fatally: its policy is Fatal and its command fails. -/
def failsFatally (succeeds : Effect → Bool) (s : PipelineStep) : Bool :=
  decide (s.onFailure = .Fatal) && !succeeds (.combinedOutput s.command)

/-- A step sequence cut off immediately after its first step that fails
fatally; the whole sequence when no step does. -/
def cutAfterFatal (succeeds : Effect → Bool) : List PipelineStep → List PipelineStep
  | [] => []
  | s :: rest => if failsFatally succeeds s then [s] else s :: cutAfterFatal succeeds rest

/-! ## Placeholder tokens -/

/-- The nine tokens `main` uses as keys of the placeholder map. -/
def tokens : List GoString :=
  [ "$GO_BOOTSTRAP_REPO_NAME".toList, "$GO_BOOTSTRAP_REPO_USER".toList,
    "$GO_BOOTSTRAP_PROJECT_NAME".toList, "$GO_BOOTSTRAP_COOKIE_SECRET".toList,
    "$GO_BOOTSTRAP_CURRENT_USER".toList, "$GO_BOOTSTRAP_PG_DSN".toList,
    "$GO_BOOTSTRAP_ESCAPED_PG_DSN".toList, "$GO_BOOTSTRAP_PG_TEST_DSN".toList,
    "$GO_BOOTSTRAP_ESCAPED_PG_TEST_DSN".toList ]

/-- The spec's invariant of the placeholder map: no replacement value equals
or contains a token. -/
def valuesTokenFree (m : GoMap) : Prop :=
  ∀ e ∈ m, ∀ t ∈ tokens, ¬ t <:+: e.2

/-! ## Paths that cleaning leaves alone -/

/-- A path segment that `filepath.Clean` keeps: not empty, not `.`, not `..`. -/
def normalSegment (s : GoString) : Prop :=
  s ≠ [] ∧ s ≠ ['.'] ∧ s ≠ ['.', '.']

instance : DecidablePred normalSegment := fun s => by
  unfold normalSegment
  infer_instance

/-- A path all of whose `/`-separated segments are normal. -/
def normalPath (p : GoString) : Prop :=
  ∀ s ∈ strings.Split p '/', normalSegment s

instance : DecidablePred normalPath := fun p => by
  unfold normalPath
  infer_instance

/-- A path without its leading `/`, when it has one. -/
def unrooted (p : GoString) : GoString :=
  if p.head? = some '/' then p.tail else p

/-- The buffer of `Clean` after the slash a real path element needs is added:
`if rooted && out.w != 1 || !rooted && out.w != 0 { out.append(Separator) }`. -/
def withSlash (rooted : Bool) (out : List Char) : List Char :=
  if (rooted = true ∧ out.length ≠ 1) ∨ (rooted = false ∧ out.length ≠ 0) then out ++ ['/']
  else out

/-! ## Lemmas: trimming -/

theorem dropWhile_replicate_append (p : Char → Bool) (c : Char) (hc : p c = true) (n : Nat)
    (l : List Char) : (List.replicate n c ++ l).dropWhile p = l.dropWhile p := by
  induction n with
  | zero => simp
  | succ n ih => simp [List.replicate_succ, List.dropWhile_cons, hc, ih]

theorem rdropWhile_append_replicate (p : Char → Bool) (c : Char) (hc : p c = true) (n : Nat)
    (l : List Char) : (l ++ List.replicate n c).rdropWhile p = l.rdropWhile p := by
  induction n with
  | zero => simp
  | succ n ih =>
    rw [List.replicate_succ', ← List.append_assoc, List.rdropWhile_concat_pos _ _ _ hc, ih]

theorem rdropWhile_dropWhile_append_replicate (p : Char → Bool) (c : Char) (hc : p c = true)
    (n : Nat) (l : List Char) :
    ((l ++ List.replicate n c).dropWhile p).rdropWhile p = (l.dropWhile p).rdropWhile p := by
  induction l with
  | nil =>
    have h := dropWhile_replicate_append p c hc n []
    simp only [List.append_nil] at h
    simp [h]
  | cons a l ih =>
    by_cases ha : p a = true
    · simpa [List.dropWhile_cons, ha] using ih
    · have h1 : ((a :: l) ++ List.replicate n c).dropWhile p = (a :: l) ++ List.replicate n c := by
        simp [List.dropWhile_cons, ha]
      have h2 : (a :: l).dropWhile p = a :: l := by simp [List.dropWhile_cons, ha]
      rw [h1, h2, rdropWhile_append_replicate p c hc]

theorem Trim_slashes (a b : Nat) (raw : GoString) :
    strings.Trim (List.replicate a '/' ++ raw ++ List.replicate b '/') ['/']
      = strings.Trim raw ['/'] := by
  unfold strings.Trim
  rw [List.append_assoc, dropWhile_replicate_append _ '/' (by simp),
    rdropWhile_dropWhile_append_replicate _ '/' (by simp)]

/-! ## Lemmas: indexing from the end -/

theorem index_append_of_length {α : Type} (init tail : List α) (i : Nat) (x : α)
    (h : tail[i]? = some x) :
    index (init ++ tail) (((init ++ tail).length : Int) - (tail.length - i : Nat)) = .ok x := by
  have hi : i < tail.length := by
    rcases Nat.lt_or_ge i tail.length with h' | h'
    · exact h'
    · rw [List.getElem?_eq_none h'] at h; cases h
  have e : (((init ++ tail).length : Int) - (tail.length - i : Nat)) = ((init.length + i : Nat) : Int) := by
    simp only [List.length_append]; omega
  rw [e]
  unfold index
  have : ¬ (((init.length + i : Nat) : Int) < 0) := by omega
  rw [if_neg this, Int.toNat_ofNat]
  have : (init ++ tail)[init.length + i]? = some x := by
    rw [List.getElem?_append_right (by omega)]
    simpa using h
  rw [this]

theorem last_three {α : Type} (l : List α) (h : 3 ≤ l.length) :
    ∃ init x y z, l = init ++ [x, y, z] := by
  refine ⟨l.take (l.length - 3), ?_⟩
  have hd : (l.drop (l.length - 3)).length = 3 := by simp; omega
  match hl : l.drop (l.length - 3), hd with
  | [x, y, z], _ => exact ⟨x, y, z, by rw [← hl, List.take_append_drop]⟩

theorem derivePaths_of_chunks (gopath dirInput : GoString) (init : List GoString)
    (x y z : GoString)
    (h : strings.Split (strings.Trim dirInput ['/']) '/' = init ++ [x, y, z]) :
    derivePaths gopath dirInput = .ok
      { trimmedPath := strings.Trim dirInput ['/'],
        fullpath := filepath.Join [gopath, "src".toList, strings.Trim dirInput ['/']],
        repoName := x, repoUser := y, projectName := z, dbName := z,
        testDbName := z ++ "-test".toList } := by
  have h3 := index_append_of_length init [x, y, z] 0 x rfl
  have h2 := index_append_of_length init [x, y, z] 1 y rfl
  have h1 := index_append_of_length init [x, y, z] 2 z rfl
  simp only [List.length_cons, List.length_nil] at h1 h2 h3
  unfold derivePaths
  simp only [h]
  norm_num at h1 h2 h3 ⊢
  rw [h3, h2, h1]
  rfl

/-! ## Lemmas: splitting -/

theorem Split_ne_nil (s : GoString) (sep : Char) : strings.Split s sep ≠ [] := by
  induction s with
  | nil => simp [strings.Split]
  | cons c cs ih =>
    unfold strings.Split
    split_ifs
    · simp
    · split <;> simp

theorem find?_decide_eq {α : Type} [DecidableEq α] (l : List α) (a : α) :
    l.find? (fun x => decide (x = a)) = if a ∈ l then some a else none := by
  induction l with
  | nil => simp
  | cons b l ih =>
    by_cases hb : b = a
    · simp [List.find?_cons, hb]
    · have hb' : ¬ a = b := fun h => hb h.symm
      simp [List.find?_cons, hb, hb', ih]

theorem resolveRoot_eq (gopathEnv gopathInput first : GoString) (rest : List GoString)
    (h : strings.Split gopathEnv ':' = first :: rest) :
    resolveRoot gopathEnv gopathInput
      = .ok (if gopathInput ≠ [] ∧ gopathInput ∈ first :: rest then gopathInput else first) := by
  unfold resolveRoot
  simp only [h, find?_decide_eq]
  have h0 : index (first :: rest) 0 = .ok first := by simp [index]
  rw [h0]
  by_cases h1 : gopathInput = []
  · simp [h1]
  · by_cases h2 : gopathInput ∈ first :: rest
    · simp only [h1, h2, ne_eq, not_false_eq_true, and_self, if_true]; rfl
    · simp only [h1, h2, ne_eq, not_false_eq_true, and_false, if_false, if_true]; rfl

theorem derivePaths_short (gopath dirInput : GoString)
    (h : (strings.Split (strings.Trim dirInput ['/']) '/').length < 3) :
    derivePaths gopath dirInput = .error .indexOutOfRange := by
  unfold derivePaths
  have hneg : ((strings.Split (strings.Trim dirInput ['/']) '/').length : Int) - 3 < 0 := by omega
  simp only [index, hneg, if_true]
  rfl

theorem intercalate_cons_cons (sep x y : GoString) (r : List GoString) :
    sep.intercalate (x :: y :: r) = x ++ sep ++ sep.intercalate (y :: r) := by
  simp [List.intercalate, List.intersperse]

theorem intercalate_singleton (sep x : GoString) : sep.intercalate [x] = x := by
  simp [List.intercalate, List.intersperse]

theorem Split_cons_ne (c sep : Char) (cs : GoString) (h : c ≠ sep) :
    ∃ hd t, strings.Split cs sep = hd :: t ∧ strings.Split (c :: cs) sep = (c :: hd) :: t := by
  cases hs : strings.Split cs sep with
  | nil => exact absurd hs (Split_ne_nil cs sep)
  | cons hd t =>
    refine ⟨hd, t, rfl, ?_⟩
    rw [strings.Split, if_neg h, hs]

theorem Split_cons_eq (sep : Char) (cs : GoString) :
    strings.Split (sep :: cs) sep = [] :: strings.Split cs sep := by
  rw [strings.Split, if_pos rfl]

theorem intercalate_Split (s : GoString) (sep : Char) :
    [sep].intercalate (strings.Split s sep) = s := by
  induction s with
  | nil => simp [strings.Split, List.intercalate, List.intersperse]
  | cons c cs ih =>
    by_cases h : c = sep
    · subst h
      rw [Split_cons_eq]
      cases hs : strings.Split cs c with
      | nil => rw [hs] at ih; simp [List.intercalate] at ih; subst ih; simp [strings.Split] at hs
      | cons hd t => rw [intercalate_cons_cons, ← hs, ih]; simp
    · obtain ⟨hd, t, h1, h2⟩ := Split_cons_ne c sep cs h
      rw [h2]
      rw [h1] at ih
      cases t with
      | nil => rw [intercalate_singleton] at ih ⊢; rw [ih]
      | cons y r => rw [intercalate_cons_cons] at ih ⊢; simp at ih ⊢; exact ih

theorem not_mem_of_mem_Split (s : GoString) (sep : Char) :
    ∀ seg ∈ strings.Split s sep, sep ∉ seg := by
  induction s with
  | nil => simp [strings.Split]
  | cons c cs ih =>
    by_cases h : c = sep
    · subst h
      rw [Split_cons_eq]
      intro seg hseg
      rcases List.mem_cons.mp hseg with rfl | h'
      · simp
      · exact ih seg h'
    · obtain ⟨hd, t, h1, h2⟩ := Split_cons_ne c sep cs h
      rw [h2]
      rw [h1] at ih
      intro seg hseg
      rcases List.mem_cons.mp hseg with rfl | h'
      · have := ih hd (List.mem_cons_self _ _)
        simp only [List.mem_cons, not_or]
        exact ⟨fun e => h e.symm, this⟩
      · exact ih seg (List.mem_cons_of_mem _ h')

/-! ## Lemmas: cleaning -/

theorem cleanLoop_fuel (rooted : Bool) :
    ∀ (fuel : Nat) (rest out : List Char) (dotdot : Nat), rest.length ≤ fuel →
      filepath.cleanLoop rooted (fuel + 1) rest out dotdot
        = filepath.cleanLoop rooted fuel rest out dotdot := by
  intro fuel
  induction fuel with
  | zero =>
    intro rest out dotdot h
    cases rest with
    | nil => rfl
    | cons c tl => simp at h
  | succ n ih =>
    intro rest out dotdot h
    cases rest with
    | nil => rfl
    | cons c tl =>
      have htl : tl.length ≤ n := by simpa using h
      have htt : tl.tail.length ≤ n := by
        rw [List.length_tail]; omega
      rw [filepath.cleanLoop]
      conv_rhs => rw [filepath.cleanLoop]
      by_cases h1 : c = '/'
      · rw [if_pos h1, if_pos h1, ih _ _ _ htl]
      · rw [if_neg h1, if_neg h1]
        have hd : ((c :: tl).dropWhile (fun x => decide (x ≠ '/'))).length ≤ n := by
          have hp : decide (c ≠ '/') = true := decide_eq_true h1
          have e : List.dropWhile (fun x => decide (x ≠ '/')) (c :: tl)
              = List.dropWhile (fun x => decide (x ≠ '/')) tl := List.dropWhile_cons_of_pos hp
          rw [e]
          exact le_trans ((List.dropWhile_sublist _).length_le) htl
        split_ifs <;> first | exact ih _ _ _ htl | exact ih _ _ _ htt | exact ih _ _ _ hd

theorem cleanLoop_fuel_add (rooted : Bool) (k : Nat) (rest out : List Char) (dotdot : Nat) :
    filepath.cleanLoop rooted (rest.length + k) rest out dotdot
      = filepath.cleanLoop rooted rest.length rest out dotdot := by
  induction k with
  | zero => rfl
  | succ k ih => rw [← Nat.add_assoc, cleanLoop_fuel rooted _ _ _ _ (Nat.le_add_right _ _), ih]

theorem takeWhile_segment (s rest : GoString) (hs : '/' ∉ s)
    (hrest : rest = [] ∨ rest.head? = some '/') :
    (s ++ rest).takeWhile (fun x => decide (x ≠ '/')) = s
      ∧ (s ++ rest).dropWhile (fun x => decide (x ≠ '/')) = rest := by
  induction s with
  | nil =>
    rcases hrest with rfl | h
    · simp
    · cases rest with
      | nil => simp
      | cons a r =>
        simp only [List.head?_cons, Option.some.injEq] at h
        subst h
        simp
  | cons a s ih =>
    simp only [List.mem_cons, not_or] at hs
    have ha : a ≠ '/' := fun e => hs.1 e.symm
    obtain ⟨h1, h2⟩ := ih hs.2
    have hp : decide (a ≠ '/') = true := decide_eq_true ha
    simp only [List.cons_append, List.takeWhile_cons, List.dropWhile_cons, hp, if_true, h1, h2,
      and_self]

theorem cleanLoop_segment (rooted : Bool) (fuel : Nat) (s rest out : List Char) (dotdot : Nat)
    (hs : normalSegment s) (hslash : '/' ∉ s) (hrest : rest = [] ∨ rest.head? = some '/') :
    filepath.cleanLoop rooted (fuel + 1) (s ++ rest) out dotdot
      = filepath.cleanLoop rooted fuel rest (withSlash rooted out ++ s) dotdot := by
  obtain ⟨hne, hdot, hdotdot⟩ := hs
  obtain ⟨ht, hd⟩ := takeWhile_segment s rest hslash hrest
  cases s with
  | nil => exact absurd rfl hne
  | cons c tl =>
    simp only [List.mem_cons, not_or] at hslash
    have hc : c ≠ '/' := fun e => hslash.1 e.symm
    have h2 : ¬ (c = '.' ∧ (tl ++ rest = [] ∨ (tl ++ rest).head? = some '/')) := by
      rintro ⟨rfl, h⟩
      cases tl with
      | nil => exact hdot rfl
      | cons d tl' =>
        simp only [List.mem_cons, not_or] at hslash
        rcases h with h | h
        · simp at h
        · simp only [List.cons_append, List.head?_cons, Option.some.injEq] at h
          exact hslash.2.1 h.symm
    have h3 : ¬ (c = '.' ∧ (tl ++ rest).head? = some '.'
        ∧ ((tl ++ rest).tail = [] ∨ (tl ++ rest).tail.head? = some '/')) := by
      rintro ⟨rfl, h, h'⟩
      cases tl with
      | nil => exact hdot rfl
      | cons d tl' =>
        simp only [List.cons_append, List.head?_cons, Option.some.injEq] at h
        subst h
        cases tl' with
        | nil => exact hdotdot rfl
        | cons e tl'' =>
          simp only [List.mem_cons, not_or] at hslash
          rcases h' with h' | h'
          · simp at h'
          · simp only [List.cons_append, List.tail_cons, List.head?_cons, Option.some.injEq] at h'
            exact hslash.2.2.1 h'.symm
    rw [List.cons_append] at ht hd ⊢
    rw [filepath.cleanLoop, if_neg hc, if_neg h2, if_neg h3]
    simp only [ht, hd, withSlash]

theorem withSlash_append_segment (rooted : Bool) (out s : List Char) (hs : s ≠ []) :
    withSlash rooted (withSlash rooted out ++ s) = withSlash rooted out ++ s ++ ['/'] := by
  have hlen : 0 < s.length := List.length_pos.mpr hs
  have h : (rooted = true ∧ (withSlash rooted out ++ s).length ≠ 1)
      ∨ (rooted = false ∧ (withSlash rooted out ++ s).length ≠ 0) := by
    cases rooted
    · right
      refine ⟨rfl, ?_⟩
      simp only [List.length_append]; omega
    · left
      refine ⟨rfl, ?_⟩
      unfold withSlash
      by_cases h1 : out.length = 1
      · have e : ¬ ((true = true ∧ out.length ≠ 1) ∨ (true = false ∧ out.length ≠ 0)) := by
          simp [h1]
        rw [if_neg e, List.length_append]
        omega
      · have e : (true = true ∧ out.length ≠ 1) ∨ (true = false ∧ out.length ≠ 0) :=
          Or.inl ⟨rfl, h1⟩
        rw [if_pos e, List.length_append, List.length_append, List.length_singleton]
        omega
  conv_lhs => rw [withSlash, if_pos h]

theorem cleanLoop_segments (rooted : Bool) (segs : List GoString) :
    ∀ (s : GoString) (fuel : Nat) (out : List Char) (dotdot : Nat),
      (∀ x ∈ s :: segs, normalSegment x ∧ '/' ∉ x) →
      (['/'].intercalate (s :: segs)).length ≤ fuel →
      filepath.cleanLoop rooted fuel (['/'].intercalate (s :: segs)) out dotdot
        = withSlash rooted out ++ ['/'].intercalate (s :: segs) := by
  induction segs with
  | nil =>
    intro s fuel out dotdot hn hf
    have hs := hn s (List.mem_cons_self _ _)
    rw [intercalate_singleton] at hf ⊢
    have hpos : 0 < s.length := List.length_pos.mpr hs.1.1
    obtain ⟨f, rfl⟩ : ∃ f, fuel = f + 1 := ⟨fuel - 1, by omega⟩
    have := cleanLoop_segment rooted f s [] out dotdot hs.1 hs.2 (Or.inl rfl)
    rw [List.append_nil] at this
    rw [this]
    cases f <;> rfl
  | cons y r ih =>
    intro s fuel out dotdot hn hf
    have hs := hn s (List.mem_cons_self _ _)
    rw [intercalate_cons_cons] at hf ⊢
    simp only [List.length_append, List.length_singleton] at hf
    have hpos : 0 < s.length := List.length_pos.mpr hs.1.1
    obtain ⟨f, rfl⟩ : ∃ f, fuel = f + 2 := ⟨fuel - 2, by omega⟩
    rw [List.append_assoc]
    rw [cleanLoop_segment rooted (f + 1) s (['/'] ++ ['/'].intercalate (y :: r)) out dotdot
      hs.1 hs.2 (Or.inr rfl)]
    rw [List.singleton_append, filepath.cleanLoop, if_pos rfl]
    rw [ih y f _ dotdot (fun x hx => hn x (List.mem_cons_of_mem _ hx)) (by omega)]
    rw [withSlash_append_segment rooted out s hs.1.1]
    simp

theorem Split_append_sep (a b : GoString) (sep : Char) :
    strings.Split (a ++ sep :: b) sep = strings.Split a sep ++ strings.Split b sep := by
  induction a with
  | nil => simp [strings.Split]
  | cons c cs ih =>
    by_cases h : c = sep
    · subst h
      rw [List.cons_append, Split_cons_eq, Split_cons_eq, ih, List.cons_append]
    · obtain ⟨hd, t, h1, h2⟩ := Split_cons_ne c sep cs h
      obtain ⟨hd', t', h1', h2'⟩ := Split_cons_ne c sep (cs ++ sep :: b) h
      rw [List.cons_append, h2', h2]
      rw [ih, h1, List.cons_append] at h1'
      injection h1' with e1 e2
      rw [List.cons_append, e1, e2]

theorem normalPath_ne_nil (p : GoString) (h : normalPath p) : p ≠ [] := by
  rintro rfl
  exact (h [] (by simp [strings.Split])).1 rfl

theorem normalPath_head (p : GoString) (h : normalPath p) : p.head? ≠ some '/' := by
  cases p with
  | nil => simp
  | cons c cs =>
    intro hc
    simp only [List.head?_cons, Option.some.injEq] at hc
    subst hc
    exact (h [] (by rw [Split_cons_eq]; exact List.mem_cons_self _ _)).1 rfl

theorem cleanLoop_normalPath (rooted : Bool) (p out : List Char) (dotdot : Nat)
    (h : normalPath p) (fuel : Nat) (hf : p.length ≤ fuel) :
    filepath.cleanLoop rooted fuel p out dotdot = withSlash rooted out ++ p := by
  have hi := intercalate_Split p '/'
  cases hs : strings.Split p '/' with
  | nil => exact absurd hs (Split_ne_nil p '/')
  | cons s segs =>
    rw [hs] at hi
    have hn : ∀ x ∈ s :: segs, normalSegment x ∧ '/' ∉ x := by
      intro x hx
      rw [← hs] at hx
      exact ⟨h x hx, not_mem_of_mem_Split p '/' x hx⟩
    have := cleanLoop_segments rooted segs s fuel out dotdot hn (by rw [hi]; exact hf)
    rw [hi] at this
    exact this

theorem Clean_normalPath (p : GoString) (h : normalPath (unrooted p)) : filepath.Clean p = p := by
  unfold unrooted at h
  by_cases hr : p.head? = some '/'
  · rw [if_pos hr] at h
    cases p with
    | nil => simp at hr
    | cons c q =>
      simp only [List.head?_cons, Option.some.injEq] at hr
      subst hr
      simp only [List.tail_cons] at h
      have hc := cleanLoop_normalPath true q ['/'] 1 h (q.length + 1) (by omega)
      unfold filepath.Clean
      simp only [List.head?_cons, List.tail_cons, List.length_cons, decide_True, if_true,
        reduceCtorEq, if_false, hc]
      simp [withSlash]
  · rw [if_neg hr] at h
    have hne := normalPath_ne_nil p h
    have hc := cleanLoop_normalPath false p [] 0 h p.length (le_refl _)
    unfold filepath.Clean
    simp only [hne, if_false, hr, decide_False, hc]
    simp [withSlash, hne]

theorem normalPath_join (a b : GoString) (ha : normalPath a) (hb : normalPath b) :
    normalPath (a ++ '/' :: b) := by
  intro s hs
  rw [Split_append_sep, List.mem_append] at hs
  rcases hs with hs | hs
  · exact ha s hs
  · exact hb s hs

theorem normalPath_src : normalPath "src".toList := by
  intro s hs
  have : strings.Split "src".toList '/' = ["src".toList] := by decide
  rw [this, List.mem_singleton] at hs
  subst hs
  unfold normalSegment
  decide

theorem Join_normalPath (root rel : GoString) (hroot : normalPath (unrooted root))
    (hrel : normalPath rel) :
    filepath.Join [root, "src".toList, rel] = root ++ "/src/".toList ++ rel := by
  have hne : root ≠ [] := by
    rintro rfl
    exact normalPath_ne_nil _ hroot rfl
  have hj : strings.Join [root, "src".toList, rel] ['/'] = root ++ "/src/".toList ++ rel := by
    simp [strings.Join, List.intercalate, List.intersperse]
  rw [filepath.Join, if_pos hne, hj]
  apply Clean_normalPath
  have e : root ++ "/src/".toList ++ rel = root ++ '/' :: ("src".toList ++ '/' :: rel) := by
    simp
  rw [e]
  have htail := normalPath_join _ _ normalPath_src hrel
  unfold unrooted at hroot ⊢
  by_cases hr : root.head? = some '/'
  · rw [if_pos hr] at hroot
    cases root with
    | nil => simp at hr
    | cons c q =>
      simp only [List.tail_cons] at hroot
      simp only [List.cons_append, List.head?_cons, List.tail_cons]
      simp only [List.head?_cons] at hr
      rw [if_pos hr]
      exact normalPath_join _ _ hroot htail
  · rw [if_neg hr] at hroot
    have : (root ++ '/' :: ("src".toList ++ '/' :: rel)).head? = root.head? := by
      cases root with
      | nil => exact absurd rfl hne
      | cons c q => rfl
    rw [this, if_neg hr]
    exact normalPath_join _ _ hroot htail

/-! ## Lemmas: runs and the pipeline -/

theorem Run.pure_bind {α β : Type} (a : α) (f : α → Run β) : (pure a >>= f) = f a := by
  show Run.andThen (Run.ret a) f = f a
  simp [Run.andThen, Run.ret]

theorem Run.lift_ok_bind {α β : Type} (a : α) (f : α → Run β) :
    (Run.lift (.ok a) >>= f) = f a :=
  Run.pure_bind a f

theorem Run.lift_error_bind {α β : Type} (e : Fault) (f : α → Run β) :
    (Run.lift (.error e : Except Fault α) >>= f) = { trace := [], result := .error e } := rfl

theorem perform_bind {β : Type} (succeeds : Effect → Bool) (e : Effect) (f : Bool → Run β) :
    (perform succeeds e >>= f)
      = { trace := e :: (f (!succeeds e)).trace, result := (f (!succeeds e)).result } := rfl

theorem ExitOnError_bind {β : Type} (err : Bool) (f : Unit → Run β) :
    (ExitOnError err >>= f)
      = if err = true then { trace := [], result := .error .exitOnError } else f () := by
  cases err
  · simp [ExitOnError, Run.pure_bind]
  · rfl

theorem pure_trace {α : Type} (a : α) : (pure a : Run α).trace = [] := rfl

theorem pure_result {α : Type} (a : α) : (pure a : Run α).result = .ok a := rfl

theorem repoIsGit_iff (repoName : GoString) :
    repoIsGit repoName = true ↔ "git".toList <+: repoName := by
  simp [repoIsGit, strings.HasPrefix]

theorem repoIsHg_iff (repoName : GoString) :
    repoIsHg repoName = true ↔ "bitbucket".toList <+: repoName := by
  simp [repoIsHg, strings.HasPrefix]

theorem not_git_and_hg (repoName : GoString) :
    ¬ (repoIsGit repoName = true ∧ repoIsHg repoName = true) := by
  rintro ⟨h1, h2⟩
  cases repoName with
  | nil => simp [repoIsGit, strings.HasPrefix] at h1
  | cons c cs =>
    simp [repoIsGit, repoIsHg, strings.HasPrefix] at h1 h2
    have e1 := h1.1
    have e2 := h2.1
    rw [← e1] at e2
    exact absurd e2 (by decide)

theorem classifyRepo_eq (repoName : GoString) :
    classifyRepo repoName
      = if repoIsGit repoName = true then .Git
        else if repoIsHg repoName = true then .Mercurial else .None := by
  unfold classifyRepo
  simp only [repoIsGit_iff, repoIsHg_iff]

theorem pipeline_trace (succeeds : Effect → Bool) (fullpath repoName : GoString) :
    (pipeline succeeds fullpath repoName).trace
      = (cutAfterFatal succeeds (stepSequence fullpath (classifyRepo repoName))).map
          (fun s => Effect.combinedOutput s.command) := by
  have hx := not_git_and_hg repoName
  unfold pipeline
  simp only [CombinedOutput, perform_bind, ExitOnError_bind, Run.pure_bind, classifyRepo_eq,
    exec.Command]
  cases hG : repoIsGit repoName <;> cases hH : repoIsHg repoName
  · simp [stepSequence, cutAfterFatal, failsFatally, perform, pure_trace, getMigrateTool,
      dbBootstrapScript, goGetAll, goTest]
    split_ifs <;> simp_all
  · simp [stepSequence, cutAfterFatal, failsFatally, perform, pure_trace, getMigrateTool,
      dbBootstrapScript, goGetAll, installGodep, hgInit, godepSave, godepGoTest]
    split_ifs <;> simp_all
  · simp [stepSequence, cutAfterFatal, failsFatally, perform, pure_trace, getMigrateTool,
      dbBootstrapScript, goGetAll, installGodep, gitInit, godepSave, godepGoTest]
    split_ifs <;> simp_all
  · simp [hG, hH] at hx

theorem pipeline_result (succeeds : Effect → Bool) (fullpath repoName : GoString) :
    (pipeline succeeds fullpath repoName).result
      = if (cutAfterFatal succeeds (stepSequence fullpath (classifyRepo repoName))).any
            (failsFatally succeeds) = true
        then .error .exitOnError else .ok () := by
  have hx := not_git_and_hg repoName
  unfold pipeline
  simp only [CombinedOutput, perform_bind, ExitOnError_bind, Run.pure_bind, classifyRepo_eq,
    exec.Command]
  cases hG : repoIsGit repoName <;> cases hH : repoIsHg repoName
  · simp [stepSequence, cutAfterFatal, failsFatally, perform, pure_result, getMigrateTool,
      dbBootstrapScript, goGetAll, goTest]
    split_ifs <;> simp_all [failsFatally, pure_result]
  · simp [stepSequence, cutAfterFatal, failsFatally, perform, pure_result, getMigrateTool,
      dbBootstrapScript, goGetAll, installGodep, hgInit, godepSave, godepGoTest]
    split_ifs <;> simp_all [failsFatally, pure_result]
  · simp [stepSequence, cutAfterFatal, failsFatally, perform, pure_result, getMigrateTool,
      dbBootstrapScript, goGetAll, installGodep, gitInit, godepSave, godepGoTest]
    split_ifs <;> simp_all [failsFatally, pure_result]
  · simp [hG, hH] at hx

theorem cutAfterFatal_sublist (succeeds : Effect → Bool) (steps : List PipelineStep) :
    (cutAfterFatal succeeds steps).Sublist steps := by
  induction steps with
  | nil => exact List.Sublist.refl _
  | cons s rest ih =>
    unfold cutAfterFatal
    split_ifs
    · exact List.Sublist.cons₂ s (List.nil_sublist rest)
    · exact List.Sublist.cons₂ s ih

theorem cutAfterFatal_of_no_failure (succeeds : Effect → Bool) (steps : List PipelineStep)
    (h : ∀ s ∈ steps, failsFatally succeeds s = false) : cutAfterFatal succeeds steps = steps := by
  induction steps with
  | nil => rfl
  | cons s rest ih =>
    unfold cutAfterFatal
    rw [h s (List.mem_cons_self _ _)]
    simp only [Bool.false_eq_true, if_false]
    rw [ih (fun x hx => h x (List.mem_cons_of_mem _ hx))]

theorem stepSequence_nodup (fullpath : GoString) (v : RepoVariant) :
    ((stepSequence fullpath v).map (fun s => Effect.combinedOutput s.command)).Nodup := by
  have key : ((stepSequence fullpath v).map (fun s => (s.command.Name, s.command.Args))).Nodup := by
    have e : (stepSequence fullpath v).map (fun s => (s.command.Name, s.command.Args))
        = (stepSequence [] v).map (fun s => (s.command.Name, s.command.Args)) := by
      cases v <;> rfl
    rw [e]
    cases v <;> decide
  have h2 : (stepSequence fullpath v).map (fun s => (s.command.Name, s.command.Args))
      = ((stepSequence fullpath v).map (fun s => Effect.combinedOutput s.command)).map
          (fun e => match e with
            | .combinedOutput c => (c.Name, c.Args)
            | _ => ([], [])) := by
    rw [List.map_map]; rfl
  rw [h2] at key
  exact List.Nodup.of_map _ key

theorem pipeline_trace_nodup (succeeds : Effect → Bool) (fullpath repoName : GoString) :
    (pipeline succeeds fullpath repoName).trace.Nodup := by
  rw [pipeline_trace]
  exact List.Nodup.sublist ((cutAfterFatal_sublist succeeds _).map _)
    (stepSequence_nodup fullpath _)

theorem buildReplacers_some (h : Helpers) (u : GoString) (p : PathInfo) :
    buildReplacers h (some u) p = .ok
      [ ("$GO_BOOTSTRAP_REPO_NAME".toList, p.repoName),
        ("$GO_BOOTSTRAP_REPO_USER".toList, p.repoUser),
        ("$GO_BOOTSTRAP_PROJECT_NAME".toList, p.projectName),
        ("$GO_BOOTSTRAP_COOKIE_SECRET".toList, h.RandString 16),
        ("$GO_BOOTSTRAP_CURRENT_USER".toList, u),
        ("$GO_BOOTSTRAP_PG_DSN".toList, h.DefaultPGDSN p.dbName),
        ("$GO_BOOTSTRAP_ESCAPED_PG_DSN".toList, h.BashEscape (h.DefaultPGDSN p.dbName)),
        ("$GO_BOOTSTRAP_PG_TEST_DSN".toList, h.DefaultPGDSN p.testDbName),
        ("$GO_BOOTSTRAP_ESCAPED_PG_TEST_DSN".toList,
          h.BashEscape (h.DefaultPGDSN p.testDbName)) ] := by
  simp [buildReplacers, GoMap.set]
  rfl

theorem buildReplacers_none (h : Helpers) (p : PathInfo) :
    buildReplacers h none p = .error .nilDereference := rfl

theorem main_of_paths (w : World) (dirInput gopathInput gopath : GoString) (p : PathInfo)
    (hdir : dirInput ≠ [])
    (hroot : resolveRoot (w.ExpandEnv "$GOPATH".toList) gopathInput = .ok gopath)
    (hp : derivePaths gopath dirInput = .ok p) :
    (main w dirInput gopathInput).trace.head? = some (.mkdirAll p.fullpath) := by
  unfold main
  rw [if_neg hdir, Run.pure_bind, hroot, Run.lift_ok_bind, hp, Run.lift_ok_bind, perform_bind]
  rfl

theorem main_of_fault (w : World) (dirInput gopathInput gopath : GoString) (f : Fault)
    (hdir : dirInput ≠ [])
    (hroot : resolveRoot (w.ExpandEnv "$GOPATH".toList) gopathInput = .ok gopath)
    (hp : derivePaths gopath dirInput = .error f) :
    main w dirInput gopathInput = { trace := [], result := .error f } := by
  unfold main
  rw [if_neg hdir, Run.pure_bind, hroot, Run.lift_ok_bind, hp, Run.lift_error_bind]

theorem resolveRoot_ok (gopathEnv gopathInput : GoString) :
    ∃ gopath, resolveRoot gopathEnv gopathInput = .ok gopath := by
  cases hs : strings.Split gopathEnv ':' with
  | nil => exact absurd hs (Split_ne_nil _ _)
  | cons first rest => exact ⟨_, resolveRoot_eq _ _ first rest hs⟩

theorem pipeline_commands (succeeds : Effect → Bool) (fullpath repoName : GoString) :
    commandsRun (pipeline succeeds fullpath repoName)
      = (cutAfterFatal succeeds (stepSequence fullpath (classifyRepo repoName))).map
          (fun s => s.command) := by
  unfold commandsRun
  rw [pipeline_trace, List.filterMap_map]
  exact congrFun (List.filterMap_eq_map (fun s : PipelineStep => s.command)) _

theorem cutAfterFatal_head? (succeeds : Effect → Bool) (steps : List PipelineStep) :
    (cutAfterFatal succeeds steps).head? = steps.head? := by
  cases steps with
  | nil => rfl
  | cons s rest =>
    unfold cutAfterFatal
    split_ifs <;> rfl

theorem Clean_ne_nil (path : GoString) : filepath.Clean path ≠ [] := by
  unfold filepath.Clean
  by_cases h : path = []
  · simp [h]
  · rw [if_neg h]
    intro hc
    simp only at hc
    split_ifs at hc <;> simp_all

theorem Join_empty_src (rel : GoString) :
    filepath.Join [[], "src".toList, rel] = filepath.Clean ("src/".toList ++ rel) := by
  have e : strings.Join ["src".toList, rel] ['/'] = "src/".toList ++ rel := by
    simp [strings.Join, List.intercalate, List.intersperse]
  rw [filepath.Join, if_neg (by simp), filepath.Join, if_pos (by decide), e]

theorem Join_src_ne_nil (gopath rel : GoString) :
    filepath.Join [gopath, "src".toList, rel] ≠ [] := by
  unfold filepath.Join
  split_ifs
  · exact Clean_ne_nil _
  · unfold filepath.Join
    rw [if_pos (by simp)]
    exact Clean_ne_nil _

theorem stepSequence_dir (fullpath : GoString) (v : RepoVariant) :
    ∀ s ∈ stepSequence fullpath v,
      s.command = getMigrateTool ∨ s.command = installGodep ∨ s.command.Dir = fullpath := by
  cases v <;>
    simp [stepSequence, dbBootstrapScript, goGetAll, gitInit, hgInit, godepSave, godepGoTest,
      goTest]

theorem main_copy_steps (w : World) (dirInput gopathInput gopath : GoString) (p : PathInfo)
    (hdir : dirInput ≠ [])
    (hroot : resolveRoot (w.ExpandEnv "$GOPATH".toList) gopathInput = .ok gopath)
    (hp : derivePaths gopath dirInput = .ok p)
    (h1 : w.succeeds (.mkdirAll p.fullpath) = true)
    (h2 : w.succeeds .getwd = true)
    (h3 : w.succeeds (.chdir (w.ExpandEnv (filepath.Join [gopath, "src".toList,
      "github.com".toList, "go-bootstrap".toList, "go-bootstrap".toList, "blank".toList])))
        = true) :
    (main w dirInput gopathInput).trace.take 4
      = [ .mkdirAll p.fullpath, .getwd,
          .chdir (w.ExpandEnv (filepath.Join [gopath, "src".toList, "github.com".toList,
            "go-bootstrap".toList, "go-bootstrap".toList, "blank".toList])),
          .combinedOutput
            { Name := "cp".toList, Args := ["-rf".toList, ".".toList, p.fullpath], Dir := [] } ] := by
  unfold main
  rw [if_neg hdir, Run.pure_bind, hroot, Run.lift_ok_bind, hp, Run.lift_ok_bind]
  simp only [CombinedOutput, perform_bind, ExitOnError_bind, h1, h2, h3, Bool.not_true,
    Bool.false_eq_true, if_false, exec.Command]
  rfl

theorem stepSequence_fetch_dir (fullpath : GoString) (v : RepoVariant) :
    ∀ s ∈ stepSequence fullpath v,
      s.command.Args = getMigrateTool.Args ∨ s.command.Args = installGodep.Args →
        s.command.Dir = [] := by
  cases v <;>
    simp [stepSequence, getMigrateTool, installGodep, dbBootstrapScript, goGetAll, gitInit,
      hgInit, godepSave, godepGoTest, goTest]

/-! ## Path derivation -/

/-- C1: for every raw relative path whose slash-trimmed form splits on "/"
into at least three segments, the path derivation of `main` returns, its
repoName, repoUser and projectName are the third-from-last, second-from-last
and last segment, and the result is the same for every number of leading and
trailing "/" added to the input. -/
theorem derivePaths_last_three_segments (gopath dirInput : GoString)
    (h : 3 ≤ (strings.Split (strings.Trim dirInput ['/']) '/').length) :
    (∃ p init, derivePaths gopath dirInput = .ok p ∧
      strings.Split (strings.Trim dirInput ['/']) '/'
        = init ++ [p.repoName, p.repoUser, p.projectName]) ∧
    ∀ a b : Nat,
      derivePaths gopath (List.replicate a '/' ++ dirInput ++ List.replicate b '/')
        = derivePaths gopath dirInput := by
  obtain ⟨init, x, y, z, hx⟩ := last_three _ h
  refine ⟨⟨_, init, derivePaths_of_chunks gopath dirInput init x y z hx, hx⟩, ?_⟩
  intro a b
  unfold derivePaths
  rw [Trim_slashes]

/-- The statement of C1 at root "/go" and path "github.com/alice/myapp". -/
theorem derivePaths_last_three_segments_witness :
    3 ≤ (strings.Split (strings.Trim "github.com/alice/myapp".toList ['/']) '/').length ∧
    ((∃ p init, derivePaths "/go".toList "github.com/alice/myapp".toList = .ok p ∧
      strings.Split (strings.Trim "github.com/alice/myapp".toList ['/']) '/'
        = init ++ [p.repoName, p.repoUser, p.projectName]) ∧
    ∀ a b : Nat,
      derivePaths "/go".toList
          (List.replicate a '/' ++ "github.com/alice/myapp".toList ++ List.replicate b '/')
        = derivePaths "/go".toList "github.com/alice/myapp".toList) :=
  ⟨by decide, derivePaths_last_three_segments _ _ (by decide)⟩

/-- C2: for a non-empty raw relative path whose slash-trimmed form splits on
"/" into fewer than three segments, the path derivation of `main` does not
end with an explicit path-format error: the unchecked index
`dirChunks[len(dirChunks)-3]` is out of range, and `main` ends with that
run-time panic before it performs any effect. -/
theorem derivePaths_short_path_panics (w : World) (dirInput gopathInput gopath : GoString)
    (hdir : dirInput ≠ [])
    (h : (strings.Split (strings.Trim dirInput ['/']) '/').length < 3) :
    derivePaths gopath dirInput = .error .indexOutOfRange ∧
    main w dirInput gopathInput = { trace := [], result := .error .indexOutOfRange } := by
  refine ⟨derivePaths_short gopath dirInput h, ?_⟩
  obtain ⟨g, hg⟩ := resolveRoot_ok (w.ExpandEnv "$GOPATH".toList) gopathInput
  exact main_of_fault w dirInput gopathInput g _ hdir hg (derivePaths_short g dirInput h)

/-- The statement of C2 at the path "myapp". -/
theorem derivePaths_short_path_panics_witness :
    "myapp".toList ≠ [] ∧
    (strings.Split (strings.Trim "myapp".toList ['/']) '/').length < 3 ∧
    derivePaths "/go".toList "myapp".toList = .error .indexOutOfRange ∧
    main unsetGopathWorld "myapp".toList [] = { trace := [], result := .error .indexOutOfRange } :=
  ⟨by decide, by decide,
    derivePaths_short_path_panics unsetGopathWorld "myapp".toList [] "/go".toList
      (by decide) (by decide)⟩

/-! ## Root selection -/

/-- C3: for every colon-separated candidate root list (it always has a first
entry) and every selection: a selection that is non-empty and equal to some
entry is the resolved root; otherwise the resolved root is the first entry.
Roots "/a:/b" with selection "/b" resolve to "/b", with selection "" or "/c"
to "/a". -/
theorem resolveRoot_selects :
    (∀ gopathEnv gopathInput : GoString,
      ∃ first rest, strings.Split gopathEnv ':' = first :: rest ∧
        (gopathInput ≠ [] ∧ gopathInput ∈ first :: rest →
          resolveRoot gopathEnv gopathInput = .ok gopathInput) ∧
        (¬ (gopathInput ≠ [] ∧ gopathInput ∈ first :: rest) →
          resolveRoot gopathEnv gopathInput = .ok first)) ∧
    resolveRoot "/a:/b".toList "/b".toList = .ok "/b".toList ∧
    resolveRoot "/a:/b".toList "".toList = .ok "/a".toList ∧
    resolveRoot "/a:/b".toList "/c".toList = .ok "/a".toList := by
  refine ⟨?_, rfl, rfl, rfl⟩
  intro gopathEnv gopathInput
  cases hs : strings.Split gopathEnv ':' with
  | nil => exact absurd hs (Split_ne_nil _ _)
  | cons first rest =>
    refine ⟨first, rest, rfl, ?_, ?_⟩
    · intro hsel
      rw [resolveRoot_eq _ _ first rest hs, if_pos hsel]
    · intro hsel
      rw [resolveRoot_eq _ _ first rest hs, if_neg hsel]

/-- C8: when `$GOPATH` is empty or unset, `main` does not fail with a
configuration error. The candidate list is the single empty entry, root
resolution returns the empty root for every selection, and for a path of at
least three segments `main` goes on with it: it creates the target directory
`filepath.Join("", "src", trimmed)`, which for a trimmed path of normal
segments is the relative path "src/" followed by the trimmed path, and, when
that, `os.Getwd` and the change into the blank directory succeed, it runs
`cp -rf . <target>` inside the blank directory with the same relative
target. -/
theorem empty_gopath_is_not_rejected (w : World) (dirInput gopathInput : GoString)
    (hgopath : w.ExpandEnv "$GOPATH".toList = []) :
    strings.Split (w.ExpandEnv "$GOPATH".toList) ':' = [[]] ∧
    resolveRoot (w.ExpandEnv "$GOPATH".toList) gopathInput = .ok [] ∧
    (3 ≤ (strings.Split (strings.Trim dirInput ['/']) '/').length →
      (main w dirInput gopathInput).trace.head?
        = some (.mkdirAll (filepath.Join [[], "src".toList, strings.Trim dirInput ['/']]))) ∧
    (3 ≤ (strings.Split (strings.Trim dirInput ['/']) '/').length →
      w.succeeds (.mkdirAll (filepath.Join [[], "src".toList, strings.Trim dirInput ['/']]))
        = true →
      w.succeeds .getwd = true →
      w.succeeds (.chdir (w.ExpandEnv (filepath.Join [[], "src".toList, "github.com".toList,
        "go-bootstrap".toList, "go-bootstrap".toList, "blank".toList]))) = true →
      (main w dirInput gopathInput).trace.take 4
        = [ .mkdirAll (filepath.Join [[], "src".toList, strings.Trim dirInput ['/']]),
            .getwd,
            .chdir (w.ExpandEnv (filepath.Join [[], "src".toList, "github.com".toList,
              "go-bootstrap".toList, "go-bootstrap".toList, "blank".toList])),
            .combinedOutput
              { Name := "cp".toList,
                Args := ["-rf".toList, ".".toList,
                  filepath.Join [[], "src".toList, strings.Trim dirInput ['/']]],
                Dir := [] } ]) ∧
    (normalPath (strings.Trim dirInput ['/']) →
      filepath.Join [[], "src".toList, strings.Trim dirInput ['/']]
        = "src/".toList ++ strings.Trim dirInput ['/']) := by
  have hroot : resolveRoot [] gopathInput = .ok [] := by
    rw [resolveRoot_eq [] gopathInput [] [] rfl]
    by_cases hsel : gopathInput ≠ [] ∧ gopathInput ∈ [([] : GoString)]
    · exact absurd (List.mem_singleton.mp hsel.2) hsel.1
    · rw [if_neg hsel]
  have hroot' : resolveRoot (w.ExpandEnv "$GOPATH".toList) gopathInput = .ok [] := by
    rw [hgopath]; exact hroot
  have hdir : 3 ≤ (strings.Split (strings.Trim dirInput ['/']) '/').length → dirInput ≠ [] := by
    intro h3
    rintro rfl
    revert h3
    decide
  refine ⟨by rw [hgopath]; rfl, hroot', ?_, ?_, ?_⟩
  · intro h3
    obtain ⟨init, x, y, z, hx⟩ := last_three _ h3
    exact main_of_paths w dirInput gopathInput [] _ (hdir h3) hroot'
      (derivePaths_of_chunks [] dirInput init x y z hx)
  · intro h3 h1 h2 h4
    obtain ⟨init, x, y, z, hx⟩ := last_three _ h3
    exact main_copy_steps w dirInput gopathInput [] _ (hdir h3) hroot'
      (derivePaths_of_chunks [] dirInput init x y z hx) h1 h2 h4
  · intro hn
    have hc := Clean_normalPath ("src/".toList ++ strings.Trim dirInput ['/']) (by
      have e : unrooted ("src/".toList ++ strings.Trim dirInput ['/'])
          = "src".toList ++ '/' :: strings.Trim dirInput ['/'] := rfl
      rw [e]
      exact normalPath_join _ _ normalPath_src hn)
    rw [Join_empty_src, hc]

/-- C8 at the failing input, `$GOPATH` unset and the path "a/b/c": root
resolution returns the empty root, and the run creates "src/a/b/c" in the
launch directory, changes into
"src/github.com/go-bootstrap/go-bootstrap/blank" and runs
`cp -rf . src/a/b/c` there. -/
theorem empty_gopath_is_not_rejected_witness :
    unsetGopathWorld.ExpandEnv "$GOPATH".toList = [] ∧
    resolveRoot [] [] = .ok [] ∧
    (main unsetGopathWorld "a/b/c".toList []).trace.take 4
      = [ .mkdirAll "src/a/b/c".toList, .getwd,
          .chdir "src/github.com/go-bootstrap/go-bootstrap/blank".toList,
          .combinedOutput
            { Name := "cp".toList, Args := ["-rf".toList, ".".toList, "src/a/b/c".toList],
              Dir := [] } ] ∧
    (strings.Split (unsetGopathWorld.ExpandEnv "$GOPATH".toList) ':' = [[]] ∧
    resolveRoot (unsetGopathWorld.ExpandEnv "$GOPATH".toList) [] = .ok [] ∧
    (3 ≤ (strings.Split (strings.Trim "a/b/c".toList ['/']) '/').length →
      (main unsetGopathWorld "a/b/c".toList []).trace.head?
        = some (.mkdirAll (filepath.Join [[], "src".toList, strings.Trim "a/b/c".toList ['/']]))) ∧
    (3 ≤ (strings.Split (strings.Trim "a/b/c".toList ['/']) '/').length →
      unsetGopathWorld.succeeds
        (.mkdirAll (filepath.Join [[], "src".toList, strings.Trim "a/b/c".toList ['/']]))
          = true →
      unsetGopathWorld.succeeds .getwd = true →
      unsetGopathWorld.succeeds (.chdir (unsetGopathWorld.ExpandEnv (filepath.Join [[],
        "src".toList, "github.com".toList, "go-bootstrap".toList, "go-bootstrap".toList,
        "blank".toList]))) = true →
      (main unsetGopathWorld "a/b/c".toList []).trace.take 4
        = [ .mkdirAll (filepath.Join [[], "src".toList, strings.Trim "a/b/c".toList ['/']]),
            .getwd,
            .chdir (unsetGopathWorld.ExpandEnv (filepath.Join [[], "src".toList,
              "github.com".toList, "go-bootstrap".toList, "go-bootstrap".toList,
              "blank".toList])),
            .combinedOutput
              { Name := "cp".toList,
                Args := ["-rf".toList, ".".toList,
                  filepath.Join [[], "src".toList, strings.Trim "a/b/c".toList ['/']]],
                Dir := [] } ]) ∧
    (normalPath (strings.Trim "a/b/c".toList ['/']) →
      filepath.Join [[], "src".toList, strings.Trim "a/b/c".toList ['/']]
        = "src/".toList ++ strings.Trim "a/b/c".toList ['/'])) :=
  ⟨rfl, rfl, rfl, empty_gopath_is_not_rejected unsetGopathWorld "a/b/c".toList [] rfl⟩

/-! ## Repo classification and the pipeline -/

/-- C4: for every repoName, the test `repoIsGit` of `main` holds exactly
when repoName starts with "git" and `repoIsHg` exactly when it starts with
"bitbucket"; the two are never both true, so the classification is one
variant: Git exactly when `repoIsGit`, Mercurial exactly when `repoIsHg`,
None when neither. "git" is Git, "bitbucket.org" is Mercurial, "gopkg.in"
is None. -/
theorem repo_classification :
    (∀ repoName : GoString,
      (repoIsGit repoName = true ↔ "git".toList <+: repoName) ∧
      (repoIsHg repoName = true ↔ "bitbucket".toList <+: repoName) ∧
      ¬ (repoIsGit repoName = true ∧ repoIsHg repoName = true) ∧
      (classifyRepo repoName = .Git ↔ repoIsGit repoName = true) ∧
      (classifyRepo repoName = .Mercurial ↔ repoIsHg repoName = true) ∧
      (classifyRepo repoName = .None ↔
        repoIsGit repoName = false ∧ repoIsHg repoName = false)) ∧
    classifyRepo "git".toList = .Git ∧
    classifyRepo "bitbucket.org".toList = .Mercurial ∧
    classifyRepo "gopkg.in".toList = .None := by
  refine ⟨?_, by decide, by decide, by decide⟩
  intro repoName
  have hx := not_git_and_hg repoName
  refine ⟨repoIsGit_iff repoName, repoIsHg_iff repoName, hx, ?_, ?_, ?_⟩ <;>
    rw [classifyRepo_eq] <;>
    cases hG : repoIsGit repoName <;> cases hH : repoIsHg repoName <;> simp_all

/-- The counterexample to C5: the path "github.com/alice/myapp" has repoName
"github.com", which is classified Git, and a run in which every command
succeeds installs godep, runs `git init` and `godep save`, and tests with
`godep go test ./...`; `go test ./...` is not run. -/
theorem github_repo_is_git :
    (derivePaths "/go".toList "github.com/alice/myapp".toList).map
        (fun p => (p.repoName, classifyRepo p.repoName,
          commandsRun (pipeline (fun _ => true) p.fullpath p.repoName)))
      = .ok ("github.com".toList, RepoVariant.Git,
          [ getMigrateTool,
            dbBootstrapScript "/go/src/github.com/alice/myapp".toList,
            goGetAll "/go/src/github.com/alice/myapp".toList,
            installGodep,
            gitInit "/go/src/github.com/alice/myapp".toList,
            godepSave "/go/src/github.com/alice/myapp".toList,
            godepGoTest "/go/src/github.com/alice/myapp".toList ]) := by
  rfl

/-- C5, amended: for the input relative path "github.com/alice/myapp" the
repoName is "github.com", which starts with "git", so the classification is
Git and the run takes the Git branch of the pipeline: the steps executed are
the Git sequence (fetch the migration tool, db-bootstrap script, fetch the
dependencies, install godep, `git init`, `godep save`, `godep go test`) cut
off after the first failing Fatal step, all of it when none fails;
`go test ./...` is never run directly. -/
theorem github_takes_git_branch (gopath : GoString) (succeeds : Effect → Bool) :
    ∃ p, derivePaths gopath "github.com/alice/myapp".toList = .ok p ∧
      p.repoName = "github.com".toList ∧
      repoIsGit p.repoName = true ∧
      classifyRepo p.repoName = .Git ∧
      commandsRun (pipeline succeeds p.fullpath p.repoName)
        = (cutAfterFatal succeeds (stepSequence p.fullpath .Git)).map (fun s => s.command) ∧
      goTest p.fullpath ∉ commandsRun (pipeline succeeds p.fullpath p.repoName) ∧
      ((∀ s ∈ stepSequence p.fullpath .Git, failsFatally succeeds s = false) →
        commandsRun (pipeline succeeds p.fullpath p.repoName)
          = [ getMigrateTool, dbBootstrapScript p.fullpath, goGetAll p.fullpath, installGodep,
              gitInit p.fullpath, godepSave p.fullpath, godepGoTest p.fullpath ]) := by
  have hsplit : strings.Split (strings.Trim "github.com/alice/myapp".toList ['/']) '/'
      = [] ++ ["github.com".toList, "alice".toList, "myapp".toList] := by decide
  have hp := derivePaths_of_chunks gopath _ _ _ _ _ hsplit
  have hgit : classifyRepo "github.com".toList = .Git := by decide
  have hisgit : repoIsGit "github.com".toList = true := by decide
  have hcmd := pipeline_commands succeeds
    (filepath.Join [gopath, "src".toList, strings.Trim "github.com/alice/myapp".toList ['/']])
    "github.com".toList
  rw [hgit] at hcmd
  refine ⟨_, hp, rfl, hisgit, hgit, hcmd, ?_, ?_⟩
  · intro hmem
    rw [hcmd] at hmem
    have hsub := List.Sublist.subset
      ((cutAfterFatal_sublist succeeds (stepSequence _ .Git)).map (fun s => s.command)) hmem
    revert hsub
    simp [stepSequence, goTest, getMigrateTool, dbBootstrapScript, goGetAll, installGodep,
      gitInit, godepSave, godepGoTest]
  · intro hall
    rw [hcmd, cutAfterFatal_of_no_failure succeeds _ hall]
    rfl

/-- C6: with the outcome of every external command an arbitrary input, for
every repoName the commands `main` executes are exactly the step sequence of
its variant cut off immediately after the first Fatal step that fails, no
command is executed twice, and the run ends with a non-zero status exactly
when an executed Fatal step failed. The sequences are those of
`stepSequence`: Git and Mercurial differ in `git init` (Fatal) against
`hg init` (Tolerated), None runs `go test ./...` after the three common
steps. -/
theorem pipeline_follows_step_sequence (succeeds : Effect → Bool)
    (fullpath repoName : GoString) :
    (pipeline succeeds fullpath repoName).trace
      = (cutAfterFatal succeeds (stepSequence fullpath (classifyRepo repoName))).map
          (fun s => Effect.combinedOutput s.command) ∧
    (pipeline succeeds fullpath repoName).trace.Nodup ∧
    ((pipeline succeeds fullpath repoName).exitsNonZero ↔
      ∃ s ∈ cutAfterFatal succeeds (stepSequence fullpath (classifyRepo repoName)),
        s.onFailure = .Fatal ∧ succeeds (.combinedOutput s.command) = false) := by
  refine ⟨pipeline_trace _ _ _, pipeline_trace_nodup _ _ _, ?_⟩
  unfold Run.exitsNonZero
  rw [pipeline_result]
  constructor
  · rintro ⟨f, hf⟩
    split_ifs at hf with hany
    · obtain ⟨s, hs, hfail⟩ := List.any_eq_true.mp hany
      refine ⟨s, hs, ?_⟩
      simpa [failsFatally] using hfail
  · rintro ⟨s, hs, hfatal, hfail⟩
    have hany : (cutAfterFatal succeeds (stepSequence fullpath (classifyRepo repoName))).any
        (failsFatally succeeds) = true :=
      List.any_eq_true.mpr ⟨s, hs, by simp [failsFatally, hfatal, hfail]⟩
    exact ⟨.exitOnError, by rw [if_pos hany]⟩

/-- The counterexample to C7: in a run for "github.com/alice/myapp" in which
every command succeeds, two of the seven commands, the fetch of the migration
tool and the installation of godep, are executed with `Dir` unset, that is in
the working directory of the process and not in the target path. -/
theorem tool_fetches_run_without_dir :
    (commandsRun (pipeline (fun _ => true) "/go/src/github.com/alice/myapp".toList
        "github.com".toList)).map (fun c => (c.Args, c.Dir))
      = [ (["get".toList, "github.com/mattes/migrate".toList], []),
          (["scripts/db-bootstrap".toList], "/go/src/github.com/alice/myapp".toList),
          (["get".toList, "./...".toList], "/go/src/github.com/alice/myapp".toList),
          (["get".toList, "github.com/tools/godep".toList], []),
          (["init".toList], "/go/src/github.com/alice/myapp".toList),
          (["save".toList, "./...".toList], "/go/src/github.com/alice/myapp".toList),
          (["go".toList, "test".toList, "./...".toList],
            "/go/src/github.com/alice/myapp".toList) ] := by
  rfl

/-- C7, amended: every external pipeline step `main` runs, except the two
tool fetches `go get github.com/mattes/migrate` and
`go get github.com/tools/godep`, is executed with its working directory set
to the target project path, which is never empty; the two tool fetches are
executed with `Dir` unset, in the working directory of the process (every
executed command with the arguments of one of them has an empty `Dir`), and
the first of them is the first command of every run. -/
theorem pipeline_working_directories (succeeds : Effect → Bool)
    (gopath trimmedPath repoName : GoString) :
    filepath.Join [gopath, "src".toList, trimmedPath] ≠ [] ∧
    getMigrateTool.Dir = [] ∧ installGodep.Dir = [] ∧
    (commandsRun (pipeline succeeds (filepath.Join [gopath, "src".toList, trimmedPath])
        repoName)).head? = some getMigrateTool ∧
    (∀ c ∈ commandsRun (pipeline succeeds (filepath.Join [gopath, "src".toList, trimmedPath])
        repoName),
      c = getMigrateTool ∨ c = installGodep ∨
        c.Dir = filepath.Join [gopath, "src".toList, trimmedPath]) ∧
    ∀ c ∈ commandsRun (pipeline succeeds (filepath.Join [gopath, "src".toList, trimmedPath])
        repoName),
      c.Args = getMigrateTool.Args ∨ c.Args = installGodep.Args → c.Dir = [] := by
  refine ⟨Join_src_ne_nil gopath trimmedPath, rfl, rfl, ?_, ?_, ?_⟩
  · rw [pipeline_commands, List.head?_map, cutAfterFatal_head?]
    cases classifyRepo repoName <;> rfl
  · intro c hc
    rw [pipeline_commands] at hc
    obtain ⟨s, hs, rfl⟩ := List.mem_map.mp hc
    exact stepSequence_dir _ _ s ((cutAfterFatal_sublist succeeds _).subset hs)
  · intro c hc
    rw [pipeline_commands] at hc
    obtain ⟨s, hs, rfl⟩ := List.mem_map.mp hc
    exact stepSequence_fetch_dir _ _ s ((cutAfterFatal_sublist succeeds _).subset hs)

/-! ## The placeholder map -/

/-- The counterexample to C9: `main` accepts the path
"a/b/$GO_BOOTSTRAP_PROJECT_NAME", its projectName is the token
"$GO_BOOTSTRAP_PROJECT_NAME", and whatever the helpers return, the map built
for it has a replacement value that contains a token. -/
theorem replacement_value_may_be_token :
    ∃ p, derivePaths "/go".toList "a/b/$GO_BOOTSTRAP_PROJECT_NAME".toList = .ok p ∧
      p.projectName = "$GO_BOOTSTRAP_PROJECT_NAME".toList ∧
      ∀ (h : Helpers) (u : Option GoString) (m : GoMap),
        buildReplacers h u p = .ok m → ¬ valuesTokenFree m := by
  have hsplit : strings.Split (strings.Trim "a/b/$GO_BOOTSTRAP_PROJECT_NAME".toList ['/']) '/'
      = [] ++ ["a".toList, "b".toList, "$GO_BOOTSTRAP_PROJECT_NAME".toList] := by decide
  refine ⟨_, derivePaths_of_chunks "/go".toList _ [] _ _ _ hsplit, rfl, ?_⟩
  intro h u m hm hfree
  cases u with
  | none => rw [buildReplacers_none] at hm; cases hm
  | some u =>
    rw [buildReplacers_some] at hm
    injection hm with hm
    subst hm
    exact hfree ("$GO_BOOTSTRAP_PROJECT_NAME".toList, "$GO_BOOTSTRAP_PROJECT_NAME".toList)
      (by simp)
      "$GO_BOOTSTRAP_PROJECT_NAME".toList (by simp [tokens]) (List.infix_refl _)

/-- C9, amended: for every input accepted by `main`, the placeholder map it
builds has the nine distinct tokens as its keys; the values are not checked
against the tokens: the entries of the repo name, the repo user and the
project name are the last three segments of the trimmed path as they are,
and the other six are what the helpers and the user lookup return. -/
theorem replacers_keys_and_values (h : Helpers) (u gopath dirInput : GoString) (p : PathInfo)
    (hp : derivePaths gopath dirInput = .ok p) :
    ∃ m init, buildReplacers h (some u) p = .ok m ∧
      m.map Prod.fst = tokens ∧ tokens.Nodup ∧ tokens.length = 9 ∧
      strings.Split (strings.Trim dirInput ['/']) '/'
        = init ++ [p.repoName, p.repoUser, p.projectName] ∧
      m.get? "$GO_BOOTSTRAP_REPO_NAME".toList = some p.repoName ∧
      m.get? "$GO_BOOTSTRAP_REPO_USER".toList = some p.repoUser ∧
      m.get? "$GO_BOOTSTRAP_PROJECT_NAME".toList = some p.projectName ∧
      m.get? "$GO_BOOTSTRAP_COOKIE_SECRET".toList = some (h.RandString 16) ∧
      m.get? "$GO_BOOTSTRAP_CURRENT_USER".toList = some u ∧
      m.get? "$GO_BOOTSTRAP_PG_DSN".toList = some (h.DefaultPGDSN p.projectName) ∧
      m.get? "$GO_BOOTSTRAP_ESCAPED_PG_DSN".toList
        = some (h.BashEscape (h.DefaultPGDSN p.projectName)) ∧
      m.get? "$GO_BOOTSTRAP_PG_TEST_DSN".toList
        = some (h.DefaultPGDSN (p.projectName ++ "-test".toList)) ∧
      m.get? "$GO_BOOTSTRAP_ESCAPED_PG_TEST_DSN".toList
        = some (h.BashEscape (h.DefaultPGDSN (p.projectName ++ "-test".toList))) := by
  have h3 : 3 ≤ (strings.Split (strings.Trim dirInput ['/']) '/').length := by
    by_contra hlt
    rw [derivePaths_short gopath dirInput (by omega)] at hp
    cases hp
  obtain ⟨init, x, y, z, hx⟩ := last_three _ h3
  rw [derivePaths_of_chunks gopath dirInput init x y z hx] at hp
  injection hp with hp
  subst hp
  refine ⟨_, init, buildReplacers_some h u _, by rfl, by decide, by decide, hx, ?_⟩
  simp [GoMap.get?]

/-- The statement of C9, amended, at root "/go" and path
"github.com/alice/myapp". -/
theorem replacers_keys_and_values_witness :
    ∃ p, derivePaths "/go".toList "github.com/alice/myapp".toList = .ok p ∧
      ∃ m init, buildReplacers unsetGopathWorld.helpers (some "alice".toList) p = .ok m ∧
        m.map Prod.fst = tokens ∧ tokens.Nodup ∧ tokens.length = 9 ∧
        strings.Split (strings.Trim "github.com/alice/myapp".toList ['/']) '/'
          = init ++ [p.repoName, p.repoUser, p.projectName] ∧
        m.get? "$GO_BOOTSTRAP_REPO_NAME".toList = some p.repoName ∧
        m.get? "$GO_BOOTSTRAP_REPO_USER".toList = some p.repoUser ∧
        m.get? "$GO_BOOTSTRAP_PROJECT_NAME".toList = some p.projectName ∧
        m.get? "$GO_BOOTSTRAP_COOKIE_SECRET".toList
          = some (unsetGopathWorld.helpers.RandString 16) ∧
        m.get? "$GO_BOOTSTRAP_CURRENT_USER".toList = some "alice".toList ∧
        m.get? "$GO_BOOTSTRAP_PG_DSN".toList
          = some (unsetGopathWorld.helpers.DefaultPGDSN p.projectName) ∧
        m.get? "$GO_BOOTSTRAP_ESCAPED_PG_DSN".toList
          = some (unsetGopathWorld.helpers.BashEscape
              (unsetGopathWorld.helpers.DefaultPGDSN p.projectName)) ∧
        m.get? "$GO_BOOTSTRAP_PG_TEST_DSN".toList
          = some (unsetGopathWorld.helpers.DefaultPGDSN (p.projectName ++ "-test".toList)) ∧
        m.get? "$GO_BOOTSTRAP_ESCAPED_PG_TEST_DSN".toList
          = some (unsetGopathWorld.helpers.BashEscape
              (unsetGopathWorld.helpers.DefaultPGDSN (p.projectName ++ "-test".toList))) :=
  ⟨_, rfl, replacers_keys_and_values unsetGopathWorld.helpers "alice".toList "/go".toList
    "github.com/alice/myapp".toList _ rfl⟩

/-! ## The target path -/

/-- The counterexample to C10: the target path is not always the root, "src"
and the trimmed relative path joined by "/". A ".." segment is resolved, a
repeated "/" is collapsed, and an empty root contributes no separator. -/
theorem target_path_is_cleaned :
    (derivePaths "/go".toList "github.com/alice/../bob/myapp".toList).map
        (fun p => (p.trimmedPath, p.fullpath,
          decide (p.fullpath = "/go".toList ++ "/src/".toList ++ p.trimmedPath)))
      = .ok ("github.com/alice/../bob/myapp".toList, "/go/src/github.com/bob/myapp".toList,
          false) ∧
    (derivePaths "/go".toList "a//b/c".toList).map
        (fun p => (p.trimmedPath, p.fullpath,
          decide (p.fullpath = "/go".toList ++ "/src/".toList ++ p.trimmedPath)))
      = .ok ("a//b/c".toList, "/go/src/a/b/c".toList, false) ∧
    (derivePaths [] "a/b/c".toList).map
        (fun p => (p.trimmedPath, p.fullpath,
          decide (p.fullpath = [] ++ "/src/".toList ++ p.trimmedPath)))
      = .ok ("a/b/c".toList, "src/a/b/c".toList, false) :=
  ⟨rfl, rfl, rfl⟩

/-- C10, amended: for every resolved root and every raw relative path of at
least three segments, the target path `main` computes is
`filepath.Join(root, "src", trimmed)`, where trimmed is the relative path
without its leading and trailing "/", and it is the same for every number of
leading and trailing "/" added to the input. When the root, after an
optional leading "/", and the trimmed relative path consist of segments that
are not empty, "." or "..", the target path is the root followed by "/src/"
followed by the trimmed relative path. -/
theorem target_path_of_normal_paths (gopath dirInput : GoString)
    (h3 : 3 ≤ (strings.Split (strings.Trim dirInput ['/']) '/').length) :
    ∃ p, derivePaths gopath dirInput = .ok p ∧
      p.fullpath = filepath.Join [gopath, "src".toList, strings.Trim dirInput ['/']] ∧
      (∀ a b : Nat,
        derivePaths gopath (List.replicate a '/' ++ dirInput ++ List.replicate b '/')
          = .ok p) ∧
      (normalPath (unrooted gopath) → normalPath (strings.Trim dirInput ['/']) →
        p.fullpath = gopath ++ "/src/".toList ++ strings.Trim dirInput ['/']) := by
  obtain ⟨init, x, y, z, hx⟩ := last_three _ h3
  have hp := derivePaths_of_chunks gopath dirInput init x y z hx
  refine ⟨_, hp, rfl, ?_, fun hroot hrel => Join_normalPath gopath _ hroot hrel⟩
  intro a b
  rw [← hp]
  unfold derivePaths
  rw [Trim_slashes]

/-- The statement of C10, amended, at root "/go" and path
"/github.com/alice/myapp/", both of normal segments: the target is
"/go/src/github.com/alice/myapp". -/
theorem target_path_of_normal_paths_witness :
    3 ≤ (strings.Split (strings.Trim "/github.com/alice/myapp/".toList ['/']) '/').length ∧
    normalPath (unrooted "/go".toList) ∧
    normalPath (strings.Trim "/github.com/alice/myapp/".toList ['/']) ∧
    "/go".toList ++ "/src/".toList ++ strings.Trim "/github.com/alice/myapp/".toList ['/']
      = "/go/src/github.com/alice/myapp".toList ∧
    ∃ p, derivePaths "/go".toList "/github.com/alice/myapp/".toList = .ok p ∧
      p.fullpath = filepath.Join ["/go".toList, "src".toList,
        strings.Trim "/github.com/alice/myapp/".toList ['/']] ∧
      (∀ a b : Nat,
        derivePaths "/go".toList
          (List.replicate a '/' ++ "/github.com/alice/myapp/".toList ++ List.replicate b '/')
          = .ok p) ∧
      (normalPath (unrooted "/go".toList) →
        normalPath (strings.Trim "/github.com/alice/myapp/".toList ['/']) →
        p.fullpath = "/go".toList ++ "/src/".toList
          ++ strings.Trim "/github.com/alice/myapp/".toList ['/']) :=
  ⟨by decide, by decide, by decide, by decide,
    target_path_of_normal_paths _ _ (by decide)⟩

end GoBootstrap
